import Mathlib

/-!
# Verification of the gene-finder library

A shallow embedding of `gene_finder.py`: DNA strands are lists of
nucleotides, and each Python function becomes a Lean function with the
same name and the same control structure (index-based loops become
recursion on the loop index).  The external `helpers` module (the
codon→amino-acid table and the shuffle service) is not part of the
sources; it is modelled from the specification, and the shuffle service
is passed in as an explicit function from the trial index to a strand.
-/

/-- A DNA nucleotide: one of the four symbols A, T, C, G.  The data
model restricts sequences to these four symbols; behaviour on other
characters is a caller contract violation. -/
inductive Nucleotide : Type
  | A | T | C | G
deriving DecidableEq

/-- A strand of DNA: an ordered, 0-indexed sequence of nucleotides. -/
abbrev Strand := List Nucleotide

open Nucleotide

/-- Embedding of `get_complement` from `gene_finder.py`: A↔T, C↔G. -/
def get_complement : Nucleotide → Nucleotide
  | A => T
  | T => A
  | C => G
  | G => C

/-- Embedding of `get_reverse_complement` from `gene_finder.py`: loop over
`strand[::-1]` appending the complement of each nucleotide, i.e. reverse
the strand and complement pointwise. -/
def get_reverse_complement (strand : Strand) : Strand :=
  strand.reverse.map get_complement

/-- Modelled from the spec: the contents of the codon table owned by the
missing `helpers` module.  A total mapping from the 64 codons to an
amino-acid symbol or the stop marker `*`, with `ATG ↦ M` (the start
codon) and the standard stop codons `TAA`, `TAG`, `TGA ↦ *`; the exact
contents are the standard genetic code, pinned down on the codons the
test suite exercises (`TGA`, `TAA ↦ *`; `ATG ↦ M`; `CCC ↦ P`;
`GCT ↦ A`; `TTT ↦ F`). -/
def codon_table : Nucleotide → Nucleotide → Nucleotide → Char
  | T, T, T => 'F'
  | T, T, C => 'F'
  | T, T, A => 'L'
  | T, T, G => 'L'
  | C, T, _ => 'L'
  | A, T, T => 'I'
  | A, T, C => 'I'
  | A, T, A => 'I'
  | A, T, G => 'M'
  | G, T, _ => 'V'
  | T, C, _ => 'S'
  | C, C, _ => 'P'
  | A, C, _ => 'T'
  | G, C, _ => 'A'
  | T, A, T => 'Y'
  | T, A, C => 'Y'
  | T, A, A => '*'
  | T, A, G => '*'
  | C, A, T => 'H'
  | C, A, C => 'H'
  | C, A, A => 'Q'
  | C, A, G => 'Q'
  | A, A, T => 'N'
  | A, A, C => 'N'
  | A, A, A => 'K'
  | A, A, G => 'K'
  | G, A, T => 'D'
  | G, A, C => 'D'
  | G, A, A => 'E'
  | G, A, G => 'E'
  | T, G, T => 'C'
  | T, G, C => 'C'
  | T, G, A => '*'
  | T, G, G => 'W'
  | C, G, _ => 'R'
  | A, G, T => 'S'
  | A, G, C => 'S'
  | A, G, A => 'R'
  | A, G, G => 'R'
  | G, G, _ => 'G'

/-- Modelled from the spec: `helpers.amino_acid`, the codon-table lookup
used by `gene_finder.py`.  On a 3-letter codon it returns the table
entry; the sources also apply it to the sub-codon windows (length < 3)
that arise at the end of a strand, where it returns no amino-acid symbol
(the test suite requires those calls to return something different from
both the stop marker and `M`, since e.g. `rest_of_orf("ATGA")` and
`find_all_orfs_one_frame("AAAAAAAA")` evaluate it on short windows). -/
def amino_acid : Strand → Option Char
  | [n1, n2, n3] => some (codon_table n1 n2 n3)
  | _ => none

/-- The window `strand[i:i + 3]` of the Python sources. -/
def window (strand : Strand) (i : Nat) : Strand :=
  (strand.drop i).take 3

/-- The loop of `rest_of_orf`: `for i in range(0, len(strand), 3)`,
returning `strand[:i]` at the first full-length window whose codon is
the stop marker, and the whole strand if the loop finishes. -/
def rest_of_orf_aux (strand : Strand) (i : Nat) : Strand :=
  if i < strand.length then
    if amino_acid (window strand i) = some '*' ∧ (window strand i).length = 3 then
      strand.take i
    else
      rest_of_orf_aux strand (i + 3)
  else strand
termination_by strand.length - i
decreasing_by omega

/-- Embedding of `rest_of_orf` from `gene_finder.py`. -/
def rest_of_orf (strand : Strand) : Strand :=
  rest_of_orf_aux strand 0

/-- The `while i < len(strand)` loop of `find_all_orfs_one_frame`: at a
start codon, append `rest_of_orf(strand[i:])` and advance `i` by the
length of that ORF plus 3; otherwise advance `i` by 3. -/
def find_all_orfs_one_frame_aux (strand : Strand) (i : Nat) : List Strand :=
  if i < strand.length then
    if amino_acid (window strand i) = some 'M' then
      rest_of_orf (strand.drop i) ::
        find_all_orfs_one_frame_aux strand (i + (rest_of_orf (strand.drop i)).length + 3)
    else
      find_all_orfs_one_frame_aux strand (i + 3)
  else []
termination_by strand.length - i
decreasing_by all_goals omega

/-- Embedding of `find_all_orfs_one_frame` from `gene_finder.py`. -/
def find_all_orfs_one_frame (strand : Strand) : List Strand :=
  find_all_orfs_one_frame_aux strand 0

/-- The guard `elements != []` of `find_all_orfs` compares a Python
string with the empty list; values of those two types are never equal in
Python, so the test is constantly true. -/
def neq_empty_list (_elements : Strand) : Bool :=
  true

/-- Embedding of `find_all_orfs` from `gene_finder.py`: for `i in range(3)` collect
the single-frame ORFs of `strand[i:]` that pass the (constantly true)
guard. -/
def find_all_orfs (strand : Strand) : List Strand :=
  (((List.range 3).map fun i =>
    (find_all_orfs_one_frame (strand.drop i)).filter neq_empty_list)).flatten

/-- Embedding of `find_all_orfs_both_strands` from `gene_finder.py`. -/
def find_all_orfs_both_strands (strand : Strand) : List Strand :=
  find_all_orfs strand ++ find_all_orfs (get_reverse_complement strand)

/-- Python's `max(xs, key=len)`: raises `ValueError` on an empty list
(modelled as `none`), otherwise scans left to right keeping the current
maximum and replacing it only on a strictly greater length, so the first
of several longest elements is returned. -/
def max_by_len : List Strand → Option Strand
  | [] => none
  | x :: xs => some (xs.foldl (fun acc orf =>
      if acc.length < orf.length then orf else acc) x)

/-- Embedding of `find_longest_orf` from `gene_finder.py`:
`max(find_all_orfs_both_strands(strand), key=len)`. -/
def find_longest_orf (strand : Strand) : Option Strand :=
  max_by_len (find_all_orfs_both_strands strand)

/-- One trial of the loop of `noncoding_orf_threshold` from
`gene_finder.py`: compute `long_orf = find_longest_orf(shuffled_strand)`
and keep the strictly shorter of `long_orf` and the running
`shortest_long_orf`.  A trial on which `find_longest_orf` raises makes
the whole call raise (`none`). -/
def threshold_step (shuffle : Nat → Strand) (shortest_long_orf : Strand)
    (k : Nat) : Option Strand :=
  (find_longest_orf (shuffle k)).map fun long_orf =>
    if long_orf.length < shortest_long_orf.length then long_orf
    else shortest_long_orf

/-- Embedding of `noncoding_orf_threshold` from `gene_finder.py`.  The
external shuffle service (`helpers.shuffle`, absent from the sources;
the spec says it returns a random permutation of the strand) is modelled
as a function `shuffle` from the trial index to the shuffled strand.
The loop `for _ in range(num_trials)` folds `threshold_step` over the
trial indices starting from the whole strand, and the function returns
the length of the final running value. -/
def noncoding_orf_threshold (shuffle : Nat → Strand) (strand : Strand)
    (num_trials : Nat) : Option Nat :=
  ((List.range num_trials).foldlM (threshold_step shuffle) strand).map List.length

/-- The arguments `strand[i:i + 3]` passed to `amino_acid` by the loop
of `rest_of_orf`, in evaluation order: the lookup is evaluated at every
visited index (the left operand of the `and`), including on a final
window of fewer than 3 characters. -/
def rest_of_orf_amino_args (strand : Strand) (i : Nat) : List Strand :=
  if i < strand.length then
    window strand i ::
      (if amino_acid (window strand i) = some '*' ∧ (window strand i).length = 3 then
        []
      else
        rest_of_orf_amino_args strand (i + 3))
  else []
termination_by strand.length - i
decreasing_by omega

/-- The arguments `strand[i:i + 3]` passed to `amino_acid` by the
start-codon test of `find_all_orfs_one_frame`, in evaluation order;
near the end of the strand the window has fewer than 3 characters. -/
def find_all_orfs_one_frame_amino_args (strand : Strand) (i : Nat) : List Strand :=
  if i < strand.length then
    window strand i ::
      (if amino_acid (window strand i) = some 'M' then
        find_all_orfs_one_frame_amino_args strand
          (i + (rest_of_orf (strand.drop i)).length + 3)
      else
        find_all_orfs_one_frame_amino_args strand (i + 3))
  else []
termination_by strand.length - i
decreasing_by all_goals omega

/-- The stop condition tested by the loop of `rest_of_orf` at index `j`:
the window `strand[j:j + 3]` maps to the stop marker and has full
length 3. -/
def stop_codon_at (strand : Strand) (j : Nat) : Prop :=
  amino_acid (window strand j) = some '*' ∧ (window strand j).length = 3

instance (strand : Strand) (j : Nat) : Decidable (stop_codon_at strand j) := by
  unfold stop_codon_at
  infer_instance

/-! ## Basic lemmas -/

lemma amino_acid_length {w : Strand} {c : Char} (h : amino_acid w = some c) :
    w.length = 3 := by
  match w with
  | [] => simp [amino_acid] at h
  | [_] => simp [amino_acid] at h
  | [_, _] => simp [amino_acid] at h
  | [_, _, _] => rfl
  | _ :: _ :: _ :: _ :: _ => simp [amino_acid] at h

lemma window_length (strand : Strand) (i : Nat) :
    (window strand i).length = min 3 (strand.length - i) := by
  simp [window]

lemma stop_codon_at_bound {strand : Strand} {j : Nat}
    (h : stop_codon_at strand j) : j + 3 ≤ strand.length := by
  have h2 := h.2
  rw [window_length] at h2
  omega

lemma rest_aux_eq_self (strand : Strand) (i : Nat) (hi : i % 3 = 0)
    (h : ∀ j, i ≤ j → j % 3 = 0 → ¬ stop_codon_at strand j) :
    rest_of_orf_aux strand i = strand := by
  have H : ∀ n i, strand.length - i ≤ n → i % 3 = 0 →
      (∀ j, i ≤ j → j % 3 = 0 → ¬ stop_codon_at strand j) →
      rest_of_orf_aux strand i = strand := by
    intro n
    induction n with
    | zero =>
      intro i hn hi h
      rw [rest_of_orf_aux]
      have hge : ¬ i < strand.length := by omega
      simp [hge]
    | succ n ih =>
      intro i hn hi h
      rw [rest_of_orf_aux]
      by_cases hlt : i < strand.length
      · have hstop : ¬ stop_codon_at strand i := h i le_rfl hi
        rw [if_pos hlt, if_neg (by simpa [stop_codon_at] using hstop)]
        exact ih (i + 3) (by omega) (by omega) fun j hj => h j (by omega)
      · simp [hlt]
  exact H strand.length i (by omega) hi h

lemma rest_aux_eq_take (strand : Strand) (i j : Nat) (hij : i ≤ j)
    (hi : i % 3 = 0) (hj : j % 3 = 0) (hstop : stop_codon_at strand j)
    (hmin : ∀ j', i ≤ j' → j' < j → j' % 3 = 0 → ¬ stop_codon_at strand j') :
    rest_of_orf_aux strand i = strand.take j := by
  have jlt : j + 3 ≤ strand.length := stop_codon_at_bound hstop
  have H : ∀ n i, strand.length - i ≤ n → i ≤ j → i % 3 = 0 →
      (∀ j', i ≤ j' → j' < j → j' % 3 = 0 → ¬ stop_codon_at strand j') →
      rest_of_orf_aux strand i = strand.take j := by
    intro n
    induction n with
    | zero =>
      intro i hn hij hi hmin
      omega
    | succ n ih =>
      intro i hn hij hi hmin
      rw [rest_of_orf_aux]
      have hlt : i < strand.length := by omega
      rw [if_pos hlt]
      by_cases hej : i = j
      · subst hej
        rw [if_pos (by simpa [stop_codon_at] using hstop)]
      · have hiltj : i < j := by omega
        have hns : ¬ stop_codon_at strand i := hmin i le_rfl hiltj hi
        rw [if_neg (by simpa [stop_codon_at] using hns)]
        exact ih (i + 3) (by omega) (by omega) (by omega)
          fun j' hj' => hmin j' (by omega)
  exact H strand.length i (by omega) hij hi hmin

/-- C1: for every strand, `rest_of_orf` returns the prefix of the strand
up to (excluding) the start index of the first window at an offset
0, 3, 6, … that has full length 3 and maps via the codon table to the
stop marker; if no window examined by the loop is such a stop window —
in particular when the final remainder is shorter than 3 characters, and
when a stop-codon triplet occurs only out of frame — the entire input
strand is returned unchanged, trailing remainder included. -/
theorem rest_of_orf_spec (strand : Strand) :
    ((∀ j, j < strand.length → j % 3 = 0 → ¬ stop_codon_at strand j) →
      rest_of_orf strand = strand)
    ∧ (∀ j, j % 3 = 0 → stop_codon_at strand j →
        (∀ j', j' < j → j' % 3 = 0 → ¬ stop_codon_at strand j') →
        rest_of_orf strand = strand.take j) := by
  constructor
  · intro h
    apply rest_aux_eq_self strand 0 (by omega)
    intro j _ hj hstop
    have := stop_codon_at_bound hstop
    exact h j (by omega) hj hstop
  · intro j hj hstop hmin
    exact rest_aux_eq_take strand 0 j (by omega) (by omega) hj hstop
      fun j' _ hj'lt hj'm => hmin j' hj'lt hj'm

/-- Witness for C1: on the strand ATGTGA the first in-frame stop window
is TGA at index 3, so `rest_of_orf` returns the 3-character ATG. -/
theorem rest_of_orf_spec_witness :
    rest_of_orf [A, T, G, T, G, A] = [A, T, G] := by
  have h := (rest_of_orf_spec [A, T, G, T, G, A]).2 3 (by decide) (by decide)
    (by decide)
  simpa using h

/-- C2: `find_all_orfs_one_frame` runs its scan loop from index 0, and
the loop satisfies the claimed step equations: past the end of the
strand the scan stops; at a scan position whose codon maps to the start
marker M it emits the ORF extracted by `rest_of_orf` from that position
and resumes at `i + length(orf) + 3` (just past the terminating stop
codon, so a start codon nested inside the captured ORF is never
examined as a separate top-level ORF of this frame); at any other
position it advances by 3, keeping the left-to-right encounter order. -/
theorem find_all_orfs_one_frame_spec (strand : Strand) (i : Nat) :
    (find_all_orfs_one_frame strand = find_all_orfs_one_frame_aux strand 0)
    ∧ (strand.length ≤ i → find_all_orfs_one_frame_aux strand i = [])
    ∧ (i < strand.length → amino_acid (window strand i) = some 'M' →
        find_all_orfs_one_frame_aux strand i =
          rest_of_orf (strand.drop i) ::
            find_all_orfs_one_frame_aux strand
              (i + (rest_of_orf (strand.drop i)).length + 3))
    ∧ (i < strand.length → ¬ amino_acid (window strand i) = some 'M' →
        find_all_orfs_one_frame_aux strand i =
          find_all_orfs_one_frame_aux strand (i + 3)) := by
  refine ⟨rfl, ?_, ?_, ?_⟩
  · intro h
    rw [find_all_orfs_one_frame_aux]
    have hge : ¬ i < strand.length := by omega
    simp [hge]
  · intro hlt hM
    rw [find_all_orfs_one_frame_aux, if_pos hlt, if_pos hM]
  · intro hlt hM
    rw [find_all_orfs_one_frame_aux, if_pos hlt, if_neg hM]

/-- Witness for C2: on the strand ATGTGA, whose codon at index 0 is the
start codon, the scan emits `rest_of_orf` of the whole strand and
resumes at index 0 + 3 + 3 = 6. -/
theorem find_all_orfs_one_frame_spec_witness :
    find_all_orfs_one_frame_aux [A, T, G, T, G, A] 0 =
      rest_of_orf [A, T, G, T, G, A] ::
        find_all_orfs_one_frame_aux [A, T, G, T, G, A]
          (0 + (rest_of_orf [A, T, G, T, G, A]).length + 3) := by
  have h := (find_all_orfs_one_frame_spec [A, T, G, T, G, A] 0).2.2.1
    (by decide) (by decide)
  simpa using h

lemma filter_neq_empty_list (l : List Strand) :
    l.filter neq_empty_list = l := by
  simp [neq_empty_list]

lemma find_all_orfs_eq (strand : Strand) :
    find_all_orfs strand =
      find_all_orfs_one_frame strand
        ++ find_all_orfs_one_frame (strand.drop 1)
        ++ find_all_orfs_one_frame (strand.drop 2) := by
  simp [find_all_orfs, List.range_succ, filter_neq_empty_list]

lemma find_all_orfs_both_strands_eq (strand : Strand) :
    find_all_orfs_both_strands strand =
      find_all_orfs_one_frame strand
        ++ find_all_orfs_one_frame (strand.drop 1)
        ++ find_all_orfs_one_frame (strand.drop 2)
        ++ (find_all_orfs_one_frame (get_reverse_complement strand)
        ++ find_all_orfs_one_frame ((get_reverse_complement strand).drop 1)
        ++ find_all_orfs_one_frame ((get_reverse_complement strand).drop 2)) := by
  rw [find_all_orfs_both_strands, find_all_orfs_eq, find_all_orfs_eq]

/-- C3: for every strand, `find_all_orfs_both_strands` is exactly the
concatenation of the single-frame scans of the suffixes of the strand at
offsets 0, 1, 2 (frame 0 first), followed by the same three scans of the
reverse complement, forward-strand results first; nothing is
deduplicated or filtered out — the guard `elements != []` of
`find_all_orfs` (a Python comparison between a string and the empty
list, which never holds) keeps every scanned ORF. -/
theorem find_all_orfs_both_strands_spec (strand : Strand) :
    (find_all_orfs_both_strands strand =
      find_all_orfs_one_frame strand
        ++ find_all_orfs_one_frame (strand.drop 1)
        ++ find_all_orfs_one_frame (strand.drop 2)
        ++ (find_all_orfs_one_frame (get_reverse_complement strand)
        ++ find_all_orfs_one_frame ((get_reverse_complement strand).drop 1)
        ++ find_all_orfs_one_frame ((get_reverse_complement strand).drop 2)))
    ∧ ∀ l : List Strand, l.filter neq_empty_list = l :=
  ⟨find_all_orfs_both_strands_eq strand, filter_neq_empty_list⟩

lemma get_complement_get_complement (n : Nucleotide) :
    get_complement (get_complement n) = n := by
  cases n <;> rfl

/-- C7: complementation is an involution on nucleotides, and taking the
reverse complement twice returns the original strand. -/
theorem reverse_complement_involutive :
    (∀ n : Nucleotide, get_complement (get_complement n) = n)
    ∧ ∀ strand : Strand,
        get_reverse_complement (get_reverse_complement strand) = strand := by
  refine ⟨get_complement_get_complement, ?_⟩
  intro strand
  unfold get_reverse_complement
  rw [List.map_reverse, List.map_map]
  have h : List.map (get_complement ∘ get_complement) strand.reverse =
      List.map id strand.reverse :=
    List.map_congr_left fun a _ => get_complement_get_complement a
  rw [h, List.map_id, List.reverse_reverse]

lemma foldl_max_by_len_mem (xs : List Strand) : ∀ x : Strand,
    xs.foldl (fun acc orf => if acc.length < orf.length then orf else acc) x
      ∈ x :: xs := by
  induction xs with
  | nil => intro x; simp
  | cons y ys ih =>
    intro x
    rw [List.foldl_cons]
    have h0 := ih (if x.length < y.length then y else x)
    by_cases hxy : x.length < y.length
    · rw [if_pos hxy] at h0 ⊢
      exact List.mem_cons_of_mem x h0
    · rw [if_neg hxy] at h0 ⊢
      rcases List.mem_cons.mp h0 with h | h
      · rw [h]
        exact List.mem_cons_self x _
      · exact List.mem_cons_of_mem x (List.mem_cons_of_mem y h)

lemma foldl_max_by_len_le (xs : List Strand) : ∀ x z : Strand, z ∈ x :: xs →
    z.length ≤
      (xs.foldl (fun acc orf => if acc.length < orf.length then orf else acc)
        x).length := by
  induction xs with
  | nil =>
    intro x z hz
    simp only [List.mem_cons, List.not_mem_nil, or_false] at hz
    subst hz
    simp
  | cons y ys ih =>
    intro x z hz
    rw [List.foldl_cons]
    have hxw : x.length ≤ (if x.length < y.length then y else x).length := by
      by_cases h : x.length < y.length <;> simp [h] <;> omega
    have hyw : y.length ≤ (if x.length < y.length then y else x).length := by
      by_cases h : x.length < y.length <;> simp [h] <;> omega
    have hwle := ih (if x.length < y.length then y else x)
      (if x.length < y.length then y else x) (List.mem_cons_self _ _)
    rcases List.mem_cons.mp hz with h | h
    · subst h
      exact le_trans hxw hwle
    · rcases List.mem_cons.mp h with h2 | h2
      · subst h2
        exact le_trans hyw hwle
      · exact ih _ z (List.mem_cons_of_mem _ h2)

/-- C4: `find_longest_orf` fails (none, modelling the `ValueError` that
Python's `max` raises on an empty sequence) exactly when
`find_all_orfs_both_strands` returns the empty list, and otherwise
returns an element of that list of maximal length. -/
theorem find_longest_orf_spec (strand : Strand) :
    (find_longest_orf strand = none ↔ find_all_orfs_both_strands strand = [])
    ∧ ∀ orf, find_longest_orf strand = some orf →
        orf ∈ find_all_orfs_both_strands strand
        ∧ ∀ other, other ∈ find_all_orfs_both_strands strand →
            other.length ≤ orf.length := by
  cases hl : find_all_orfs_both_strands strand with
  | nil =>
    constructor
    · simp [find_longest_orf, hl, max_by_len]
    · intro orf h
      rw [find_longest_orf, hl] at h
      simp [max_by_len] at h
  | cons x xs =>
    constructor
    · simp [find_longest_orf, hl, max_by_len]
    · intro orf h
      rw [find_longest_orf, hl] at h
      simp only [max_by_len, Option.some.injEq] at h
      subst h
      refine ⟨hl ▸ foldl_max_by_len_mem xs x, fun other hother => ?_⟩
      exact foldl_max_by_len_le xs x other (hl ▸ hother)

lemma one_frame_ATG : find_all_orfs_one_frame [A, T, G] = [[A, T, G]] := by
  simp [find_all_orfs_one_frame, find_all_orfs_one_frame_aux, rest_of_orf,
    rest_of_orf_aux, window, amino_acid, codon_table]

lemma one_frame_TG : find_all_orfs_one_frame [T, G] = [] := by
  simp [find_all_orfs_one_frame, find_all_orfs_one_frame_aux, window,
    amino_acid, codon_table]

lemma one_frame_G : find_all_orfs_one_frame [G] = [] := by
  simp [find_all_orfs_one_frame, find_all_orfs_one_frame_aux, window,
    amino_acid, codon_table]

lemma one_frame_CAT : find_all_orfs_one_frame [C, A, T] = [] := by
  simp [find_all_orfs_one_frame, find_all_orfs_one_frame_aux, window,
    amino_acid, codon_table]

lemma one_frame_AT : find_all_orfs_one_frame [A, T] = [] := by
  simp [find_all_orfs_one_frame, find_all_orfs_one_frame_aux, window,
    amino_acid, codon_table]

lemma one_frame_T : find_all_orfs_one_frame [T] = [] := by
  simp [find_all_orfs_one_frame, find_all_orfs_one_frame_aux, window,
    amino_acid, codon_table]

lemma both_strands_ATG :
    find_all_orfs_both_strands [A, T, G] = [[A, T, G]] := by
  have hrc : get_reverse_complement [A, T, G] = [C, A, T] := by
    simp [get_reverse_complement, get_complement]
  rw [find_all_orfs_both_strands_eq, hrc]
  simp [List.drop, one_frame_ATG, one_frame_TG, one_frame_G, one_frame_CAT,
    one_frame_AT, one_frame_T]

lemma find_longest_orf_ATG : find_longest_orf [A, T, G] = some [A, T, G] := by
  rw [find_longest_orf, both_strands_ATG]
  simp [max_by_len]

/-- Witness for C4: on the strand ATG the only ORF anywhere is ATG
itself, and `find_longest_orf` returns it; it is a member of the
aggregate list and of maximal length in it. -/
theorem find_longest_orf_spec_witness :
    [A, T, G] ∈ find_all_orfs_both_strands [A, T, G]
    ∧ ∀ other, other ∈ find_all_orfs_both_strands [A, T, G] →
        other.length ≤ ([A, T, G] : Strand).length :=
  (find_longest_orf_spec [A, T, G]).2 [A, T, G] find_longest_orf_ATG

lemma rest_of_orf_cases (t : Strand) :
    (rest_of_orf t = t ∧ ∀ j, j % 3 = 0 → ¬ stop_codon_at t j)
    ∨ ∃ j, j % 3 = 0 ∧ stop_codon_at t j
        ∧ (∀ j', j' % 3 = 0 → j' < j → ¬ stop_codon_at t j')
        ∧ rest_of_orf t = t.take j := by
  by_cases h : ∃ j, j % 3 = 0 ∧ stop_codon_at t j
  · right
    refine ⟨Nat.find h, (Nat.find_spec h).1, (Nat.find_spec h).2, ?_, ?_⟩
    · intro j' hj' hlt hstop
      exact Nat.find_min h hlt ⟨hj', hstop⟩
    · exact rest_aux_eq_take t 0 (Nat.find h) (Nat.zero_le _) (by omega)
        (Nat.find_spec h).1 (Nat.find_spec h).2
        fun j' _ hlt hm hs => Nat.find_min h hlt ⟨hm, hs⟩
  · left
    push_neg at h
    refine ⟨?_, h⟩
    exact rest_aux_eq_self t 0 (by omega) fun j _ hj => h j hj

lemma take_window_eq {t : Strand} {n j : Nat} (h : j + 3 ≤ n) :
    window (t.take n) j = window t j := by
  unfold window
  rw [List.drop_take, List.take_take]
  have hm : min 3 (n - j) = 3 := by omega
  rw [hm]

lemma stop_codon_at_take {t : Strand} {j0 : Nat} (hb : j0 ≤ t.length) :
    ∀ j, stop_codon_at (t.take j0) j → j + 3 ≤ j0 ∧ stop_codon_at t j := by
  intro j hs
  have htake : (t.take j0).length = j0 := by
    rw [List.length_take]
    omega
  have hlen := hs.2
  rw [window_length, htake] at hlen
  have hj3 : j + 3 ≤ j0 := by omega
  have hw : window (t.take j0) j = window t j := take_window_eq hj3
  unfold stop_codon_at at hs
  rw [hw] at hs
  exact ⟨hj3, hs⟩

lemma rest_of_orf_of_start {t : Strand}
    (hM : amino_acid (t.take 3) = some 'M') :
    3 ≤ (rest_of_orf t).length
    ∧ amino_acid ((rest_of_orf t).take 3) = some 'M'
    ∧ ∀ j, j % 3 = 0 → ¬ stop_codon_at (rest_of_orf t) j := by
  have hlen3 : (t.take 3).length = 3 := amino_acid_length hM
  have htlen : 3 ≤ t.length := by
    rw [List.length_take] at hlen3
    omega
  rcases rest_of_orf_cases t with ⟨heq, hno⟩ | ⟨j0, hj0, hstop, hmin, heq⟩
  · rw [heq]
    exact ⟨htlen, hM, hno⟩
  · have hb3 : j0 + 3 ≤ t.length := stop_codon_at_bound hstop
    have hj0ne : j0 ≠ 0 := by
      intro h0
      subst h0
      have hw0 : window t 0 = t.take 3 := by simp [window]
      have h1 := hstop.1
      rw [hw0, hM] at h1
      exact absurd h1 (by decide)
    have hj03 : 3 ≤ j0 := by omega
    have htake : (t.take j0).length = j0 := by
      rw [List.length_take]
      omega
    refine ⟨?_, ?_, ?_⟩
    · rw [heq, htake]
      exact hj03
    · rw [heq, List.take_take]
      have hm : min 3 j0 = 3 := by omega
      rw [hm]
      exact hM
    · intro j hj hs
      rw [heq] at hs
      obtain ⟨hj3, hs2⟩ := stop_codon_at_take (by omega) j hs
      exact hmin j hj (by omega) hs2

lemma mem_one_frame_aux {strand orf : Strand} :
    ∀ n i, strand.length - i ≤ n →
      orf ∈ find_all_orfs_one_frame_aux strand i →
      ∃ k, i ≤ k ∧ k < strand.length
        ∧ amino_acid (window strand k) = some 'M'
        ∧ orf = rest_of_orf (strand.drop k) := by
  intro n
  induction n with
  | zero =>
    intro i hn hmem
    rw [find_all_orfs_one_frame_aux] at hmem
    have hge : ¬ i < strand.length := by omega
    simp [hge] at hmem
  | succ n ih =>
    intro i hn hmem
    rw [find_all_orfs_one_frame_aux] at hmem
    by_cases hlt : i < strand.length
    · rw [if_pos hlt] at hmem
      by_cases hM : amino_acid (window strand i) = some 'M'
      · rw [if_pos hM] at hmem
        rcases List.mem_cons.mp hmem with h | h
        · exact ⟨i, le_rfl, hlt, hM, h⟩
        · obtain ⟨k, hik, hk1, hk2, hk3⟩ :=
            ih (i + (rest_of_orf (strand.drop i)).length + 3) (by omega) h
          exact ⟨k, by omega, hk1, hk2, hk3⟩
      · rw [if_neg hM] at hmem
        obtain ⟨k, hik, hk1, hk2, hk3⟩ := ih (i + 3) (by omega) hmem
        exact ⟨k, by omega, hk1, hk2, hk3⟩
    · rw [if_neg hlt] at hmem
      simp at hmem

lemma mem_one_frame {strand orf : Strand}
    (h : orf ∈ find_all_orfs_one_frame strand) :
    ∃ k, k < strand.length
      ∧ amino_acid ((strand.drop k).take 3) = some 'M'
      ∧ orf = rest_of_orf (strand.drop k) := by
  obtain ⟨k, _, hlt, hM, heq⟩ :=
    mem_one_frame_aux strand.length 0 (by omega) h
  exact ⟨k, hlt, hM, heq⟩

lemma orf_prop_of_mem_one_frame {strand orf : Strand}
    (h : orf ∈ find_all_orfs_one_frame strand) :
    3 ≤ orf.length ∧ amino_acid (orf.take 3) = some 'M'
      ∧ ∀ j, j % 3 = 0 → ¬ stop_codon_at orf j := by
  obtain ⟨k, hlt, hM, heq⟩ := mem_one_frame h
  subst heq
  exact rest_of_orf_of_start hM

lemma mem_find_all_orfs {strand orf : Strand}
    (h : orf ∈ find_all_orfs strand) :
    orf ∈ find_all_orfs_one_frame strand
    ∨ orf ∈ find_all_orfs_one_frame (strand.drop 1)
    ∨ orf ∈ find_all_orfs_one_frame (strand.drop 2) := by
  rw [find_all_orfs_eq] at h
  simp only [List.mem_append] at h
  tauto

/-- C8: every ORF returned by `find_all_orfs_one_frame` — and hence
every ORF returned by `find_all_orfs` and `find_all_orfs_both_strands` —
has length at least 3, begins with a codon that the codon table maps to
the start marker M, and has no full-length in-frame stop codon among its
windows at offsets 0, 3, 6, …. -/
theorem orf_invariants : ∀ strand orf : Strand,
    (orf ∈ find_all_orfs_one_frame strand ∨ orf ∈ find_all_orfs strand
      ∨ orf ∈ find_all_orfs_both_strands strand) →
    3 ≤ orf.length ∧ amino_acid (orf.take 3) = some 'M'
      ∧ ∀ j, j % 3 = 0 → ¬ stop_codon_at orf j := by
  intro strand orf h
  rcases h with h | h | h
  · exact orf_prop_of_mem_one_frame h
  · rcases mem_find_all_orfs h with h | h | h <;>
      exact orf_prop_of_mem_one_frame h
  · rw [find_all_orfs_both_strands] at h
    rcases List.mem_append.mp h with h | h <;>
    · rcases mem_find_all_orfs h with h | h | h <;>
        exact orf_prop_of_mem_one_frame h

/-- Witness for C8: the ORF ATG produced by the single-frame scan of the
strand ATG has length 3, starts with the start codon, and has no
in-frame stop window. -/
theorem orf_invariants_witness :
    3 ≤ ([A, T, G] : Strand).length
    ∧ amino_acid (([A, T, G] : Strand).take 3) = some 'M'
    ∧ ∀ j, j % 3 = 0 → ¬ stop_codon_at [A, T, G] j :=
  orf_invariants [A, T, G] [A, T, G]
    (Or.inl (by rw [one_frame_ATG]; exact List.mem_singleton.mpr rfl))

lemma rest_of_orf_length_le (t : Strand) :
    (rest_of_orf t).length ≤ t.length := by
  rcases rest_of_orf_cases t with ⟨heq, _⟩ | ⟨j0, _, _, _, heq⟩
  · rw [heq]
  · rw [heq, List.length_take]
    omega

lemma mem_one_frame_length_le {t orf : Strand}
    (h : orf ∈ find_all_orfs_one_frame t) : orf.length ≤ t.length := by
  obtain ⟨k, _, _, heq⟩ := mem_one_frame h
  subst heq
  calc (rest_of_orf (t.drop k)).length
      ≤ (t.drop k).length := rest_of_orf_length_le _
    _ ≤ t.length := by rw [List.length_drop]; omega

lemma mem_both_strands_length_le {strand orf : Strand}
    (h : orf ∈ find_all_orfs_both_strands strand) :
    orf.length ≤ strand.length := by
  have hrc : (get_reverse_complement strand).length = strand.length := by
    simp [get_reverse_complement]
  rw [find_all_orfs_both_strands_eq] at h
  simp only [List.mem_append] at h
  have hd : ∀ t : Strand, ∀ d : Nat, orf ∈ find_all_orfs_one_frame (t.drop d) →
      orf.length ≤ t.length := by
    intro t d hm
    calc orf.length ≤ (t.drop d).length := mem_one_frame_length_le hm
      _ ≤ t.length := by rw [List.length_drop]; omega
  rcases h with ((h | h) | h) | ((h | h) | h)
  · exact le_trans (mem_one_frame_length_le h) le_rfl
  · exact hd strand 1 h
  · exact hd strand 2 h
  · exact le_trans (mem_one_frame_length_le h) (le_of_eq hrc)
  · exact le_trans (hd _ 1 h) (le_of_eq hrc)
  · exact le_trans (hd _ 2 h) (le_of_eq hrc)

lemma find_longest_orf_length_le {s orf : Strand}
    (h : find_longest_orf s = some orf) : orf.length ≤ s.length := by
  rcases hl : find_all_orfs_both_strands s with _ | ⟨x, xs⟩
  · rw [find_longest_orf, hl] at h
    simp [max_by_len] at h
  · rw [find_longest_orf, hl] at h
    simp only [max_by_len, Option.some.injEq] at h
    subst h
    exact mem_both_strands_length_le (hl ▸ foldl_max_by_len_mem xs x)

lemma foldlM_option_concat {α β : Type} (f : β → α → Option β) (b : β)
    (l : List α) (a : α) :
    (l ++ [a]).foldlM f b = (l.foldlM f b).bind fun x => f x a := by
  induction l generalizing b with
  | nil => simp [List.foldlM]
  | cons y ys ih =>
    simp only [List.cons_append, List.foldlM]
    cases f b y with
    | none => rfl
    | some b2 => simpa using ih b2

lemma threshold_step_some {shuffle : Nat → Strand} {s s2 : Strand} {k : Nat}
    (h : threshold_step shuffle s k = some s2) :
    ∃ long, find_longest_orf (shuffle k) = some long
      ∧ s2 = (if long.length < s.length then long else s) := by
  unfold threshold_step at h
  cases hf : find_longest_orf (shuffle k) with
  | none => rw [hf] at h; simp at h
  | some long =>
    rw [hf] at h
    simp only [Option.map_some', Option.some.injEq] at h
    exact ⟨long, rfl, h.symm⟩

lemma threshold_run {shuffle : Nat → Strand} {strand : Strand}
    {orfs : Nat → Strand} {trials : Nat}
    (hperm : ∀ k, k < trials → (shuffle k).Perm strand)
    (horf : ∀ k, k < trials → find_longest_orf (shuffle k) = some (orfs k)) :
    ∀ t, t ≤ trials → ∃ s_t,
      (List.range t).foldlM (threshold_step shuffle) strand = some s_t
      ∧ s_t.length ≤ strand.length
      ∧ (∀ k, k < t → s_t.length ≤ (orfs k).length)
      ∧ (s_t = strand ∨ ∃ k, k < t ∧ s_t = orfs k) := by
  intro t
  induction t with
  | zero =>
    intro _
    exact ⟨strand, rfl, le_rfl, by omega, Or.inl rfl⟩
  | succ t ih =>
    intro ht
    obtain ⟨s_t, hfold, hle, hall, hex⟩ := ih (by omega)
    have horft := horf t (by omega)
    have hlenle : (orfs t).length ≤ strand.length := by
      have h1 := find_longest_orf_length_le horft
      have h2 := (hperm t (by omega)).length_eq
      omega
    rw [List.range_succ, foldlM_option_concat, hfold]
    simp only [Option.some_bind]
    unfold threshold_step
    rw [horft]
    simp only [Option.map_some']
    by_cases hshort : (orfs t).length < s_t.length
    · rw [if_pos hshort]
      refine ⟨orfs t, rfl, hlenle, ?_, ?_⟩
      · intro k hk
        rcases Nat.lt_succ_iff_lt_or_eq.mp hk with hk2 | hk2
        · exact le_trans (le_of_lt hshort) (hall k hk2)
        · rw [hk2]
      · exact Or.inr ⟨t, by omega, rfl⟩
    · rw [if_neg hshort]
      refine ⟨s_t, rfl, hle, ?_, ?_⟩
      · intro k hk
        rcases Nat.lt_succ_iff_lt_or_eq.mp hk with hk2 | hk2
        · exact hall k hk2
        · rw [hk2]; omega
      · rcases hex with hex | ⟨k, hk, hkeq⟩
        · exact Or.inl hex
        · exact Or.inr ⟨k, by omega, hkeq⟩

/-- C5: with the shuffle service modelled as a function from the trial
index to a permutation of the strand, `noncoding_orf_threshold` returns
the length of the whole strand when `trials = 0`, and for `trials ≥ 1`
(each trial's longest ORF existing) it returns the minimum, over the
trials, of each shuffle's longest-ORF length: a value that is a lower
bound of all of them and is attained by one of them. -/
theorem noncoding_orf_threshold_spec (shuffle : Nat → Strand)
    (strand : Strand) (trials : Nat) (orfs : Nat → Strand)
    (hperm : ∀ k, k < trials → (shuffle k).Perm strand)
    (horf : ∀ k, k < trials → find_longest_orf (shuffle k) = some (orfs k)) :
    noncoding_orf_threshold shuffle strand 0 = some strand.length
    ∧ (1 ≤ trials →
        ∃ m, noncoding_orf_threshold shuffle strand trials = some m
          ∧ (∀ k, k < trials → m ≤ (orfs k).length)
          ∧ ∃ k, k < trials ∧ m = (orfs k).length) := by
  constructor
  · simp [noncoding_orf_threshold, List.foldlM]
  · intro ht
    obtain ⟨s_t, hfold, hle, hall, hex⟩ :=
      threshold_run hperm horf trials le_rfl
    refine ⟨s_t.length, ?_, hall, ?_⟩
    · rw [noncoding_orf_threshold, hfold]
      rfl
    · rcases hex with he | ⟨k, hk, he⟩
      · refine ⟨0, by omega, ?_⟩
        have h0 : s_t.length ≤ (orfs 0).length := hall 0 (by omega)
        have h1 : (orfs 0).length ≤ strand.length := by
          have h2 := find_longest_orf_length_le (horf 0 (by omega))
          have h3 := (hperm 0 (by omega)).length_eq
          omega
        subst he
        omega
      · exact ⟨k, hk, by rw [he]⟩

/-- Witness for C5: one trial whose shuffle returns the strand ATG
itself; the threshold is 3, the length of the single longest ORF. -/
theorem noncoding_orf_threshold_spec_witness :
    noncoding_orf_threshold (fun _ => [A, T, G]) [A, T, G] 0 =
      some ([A, T, G] : Strand).length
    ∧ (1 ≤ 1 →
        ∃ m, noncoding_orf_threshold (fun _ => [A, T, G]) [A, T, G] 1 = some m
          ∧ (∀ k, k < 1 → m ≤ (([A, T, G] : Strand)).length)
          ∧ ∃ k, k < 1 ∧ m = (([A, T, G] : Strand)).length) :=
  noncoding_orf_threshold_spec (fun _ => [A, T, G]) [A, T, G] 1
    (fun _ => [A, T, G]) (fun _ _ => List.Perm.refl _)
    (fun _ _ => find_longest_orf_ATG)

/-- C6: for a fixed strand and a fixed sequence of shuffle outcomes, the
threshold is monotone non-increasing in the number of trials: whenever
both calls return a value, the value at more trials is at most the value
at fewer trials. -/
theorem noncoding_orf_threshold_mono (shuffle : Nat → Strand)
    (strand : Strand) (t1 t2 m1 m2 : Nat) (h12 : t1 ≤ t2)
    (h1 : noncoding_orf_threshold shuffle strand t1 = some m1)
    (h2 : noncoding_orf_threshold shuffle strand t2 = some m2) :
    m2 ≤ m1 := by
  have hfold : ∀ t m, noncoding_orf_threshold shuffle strand t = some m →
      ∃ s, (List.range t).foldlM (threshold_step shuffle) strand = some s
        ∧ s.length = m := by
    intro t m hm
    rw [noncoding_orf_threshold] at hm
    cases hf : (List.range t).foldlM (threshold_step shuffle) strand with
    | none => rw [hf] at hm; simp at hm
    | some s =>
      rw [hf] at hm
      simp only [Option.map_some', Option.some.injEq] at hm
      exact ⟨s, rfl, hm⟩
  obtain ⟨s1, hf1, hm1⟩ := hfold t1 m1 h1
  obtain ⟨s2, hf2, hm2⟩ := hfold t2 m2 h2
  have key : ∀ d s,
      (List.range (t1 + d)).foldlM (threshold_step shuffle) strand = some s →
      s.length ≤ s1.length := by
    intro d
    induction d with
    | zero =>
      intro s hs
      rw [Nat.add_zero] at hs
      have he := Option.some.inj (hf1.symm.trans hs)
      rw [← he]
    | succ d ih =>
      intro s hs
      rw [show t1 + (d + 1) = (t1 + d) + 1 by omega, List.range_succ,
        foldlM_option_concat] at hs
      cases hmid : (List.range (t1 + d)).foldlM (threshold_step shuffle)
          strand with
      | none => rw [hmid] at hs; simp at hs
      | some smid =>
        rw [hmid] at hs
        simp only [Option.some_bind] at hs
        obtain ⟨long, hlong, heq⟩ := threshold_step_some hs
        have hmidle := ih smid hmid
        have hstep : s.length ≤ smid.length := by
          rw [heq]
          by_cases hc : long.length < smid.length
          · rw [if_pos hc]
            omega
          · rw [if_neg hc]
        omega
  have ht : t2 = t1 + (t2 - t1) := by omega
  rw [ht] at hf2
  have := key (t2 - t1) s2 hf2
  omega

lemma noncoding_ATG_zero :
    noncoding_orf_threshold (fun _ => [A, T, G]) [A, T, G] 0 = some 3 := by
  simp [noncoding_orf_threshold, List.foldlM]

lemma noncoding_ATG_one :
    noncoding_orf_threshold (fun _ => [A, T, G]) [A, T, G] 1 = some 3 := by
  simp [noncoding_orf_threshold, threshold_step, find_longest_orf_ATG,
    List.range_succ, List.foldlM]

/-- Witness for C6: on the strand ATG with the identity shuffle, the
threshold is 3 at zero trials and 3 at one trial, and 3 ≤ 3. -/
theorem noncoding_orf_threshold_mono_witness :
    noncoding_orf_threshold (fun _ => [A, T, G]) [A, T, G] 0 = some 3
    ∧ noncoding_orf_threshold (fun _ => [A, T, G]) [A, T, G] 1 = some 3
    ∧ (3 : Nat) ≤ 3 :=
  ⟨noncoding_ATG_zero, noncoding_ATG_one,
    noncoding_orf_threshold_mono (fun _ => [A, T, G]) [A, T, G] 0 1 3 3
      (by omega) noncoding_ATG_zero noncoding_ATG_one⟩

lemma one_frame_A : find_all_orfs_one_frame [A] = [] := by
  simp [find_all_orfs_one_frame, find_all_orfs_one_frame_aux, window,
    amino_acid, codon_table]

lemma one_frame_nil : find_all_orfs_one_frame [] = [] := by
  simp [find_all_orfs_one_frame, find_all_orfs_one_frame_aux]

lemma both_strands_A : find_all_orfs_both_strands [A] = [] := by
  have hrc : get_reverse_complement [A] = [T] := by
    simp [get_reverse_complement, get_complement]
  rw [find_all_orfs_both_strands_eq, hrc]
  simp [List.drop, one_frame_A, one_frame_T, one_frame_nil]

lemma find_longest_orf_A : find_longest_orf [A] = none := by
  rw [find_longest_orf, both_strands_A]
  rfl

/-- C9: for some strand and one trial, `noncoding_orf_threshold` fails
instead of returning a length: the strand A has only itself as a
permutation, it yields zero ORFs on both strands, so the internal
`find_longest_orf` call is applied to an empty list and raises. -/
theorem noncoding_orf_threshold_raises :
    (∀ l : Strand, l.Perm [A] → l = [A])
    ∧ find_all_orfs_both_strands [A] = []
    ∧ find_longest_orf [A] = none
    ∧ noncoding_orf_threshold (fun _ => [A]) [A] 1 = none := by
  refine ⟨?_, both_strands_A, find_longest_orf_A, ?_⟩
  · intro l hl
    exact List.perm_singleton.mp hl
  · simp [noncoding_orf_threshold, threshold_step, find_longest_orf_A,
      List.range_succ, List.foldlM]

/-- C10: the codon-table lookup is applied to windows of fewer than 3
characters: on the strand ATGA the loop of `rest_of_orf` evaluates
`amino_acid` on the final 1-character window (the left operand of the
`and` is evaluated before the length guard), and on the strand TTTA the
start-codon test of `find_all_orfs_one_frame` does the same; the
modelled `amino_acid` is defined (returning no symbol) on such sub-codon
arguments. -/
theorem amino_acid_subcodon_calls :
    rest_of_orf_amino_args [A, T, G, A] 0 = [[A, T, G], [A]]
    ∧ find_all_orfs_one_frame_amino_args [T, T, T, A] 0 = [[T, T, T], [A]]
    ∧ (∃ w ∈ rest_of_orf_amino_args [A, T, G, A] 0, w.length < 3)
    ∧ (∃ w ∈ find_all_orfs_one_frame_amino_args [T, T, T, A] 0, w.length < 3)
    ∧ amino_acid [A] = none := by
  have h1 : rest_of_orf_amino_args [A, T, G, A] 0 = [[A, T, G], [A]] := by
    simp [rest_of_orf_amino_args, window, amino_acid, codon_table]
  have h2 : find_all_orfs_one_frame_amino_args [T, T, T, A] 0 =
      [[T, T, T], [A]] := by
    simp [find_all_orfs_one_frame_amino_args, window, amino_acid, codon_table]
  exact ⟨h1, h2, ⟨[A], by simp [h1], by decide⟩,
    ⟨[A], by simp [h2], by decide⟩, rfl⟩
